import Mathlib

/-!
Shallow embedding of the reconstruction-and-aggregation engine of the
Employee-Activity-Monitor repository (src/database.py, src/activity_detector.py),
together with theorems checking the natural-language specification against it.

Timestamps are modelled as exact rationals measured in seconds (the Python code
works with `datetime` differences converted via `total_seconds()`); durations in
minutes are obtained by dividing by 60, exactly as in the source.  Python's
`round(x, 2)` (round-half-to-even at two decimals) is modelled by `pyRound2`,
and Python's `int()` truncation by `pyInt`.  Python strings are modelled as
`List Char` (`Str`), with the string primitives the source uses (split, strip,
lower, ...) implemented structurally so that every definition evaluates.
Fallible code paths (the `IndexError` raised by `n.split()[0]` on a token-free
string, a store write failure during a flush) are modelled with `Option`/`Except`.
-/

namespace EAM

/-! ### Python string primitives over `Str = List Char` -/

/-- Python strings, modelled as their character lists. -/
abbrev Str := List Char

/-- Character list of a Lean string literal. -/
def s2c (s : String) : Str := s.data

/-- Python's `pat in s` substring containment test. -/
def hasSub : Str → Str → Bool
  | s, pat =>
    if pat.isPrefixOf s then true
    else
      match s with
      | [] => false
      | _ :: rest => hasSub rest pat

/-- Worker for `pySplit`: scan left to right, cutting at each leftmost
non-overlapping occurrence of `sep`.  The fuel argument (at least
`s.length + 1` at the top call) makes the recursion structural; every step
consumes at least one character, so the fuel never runs out. -/
def splitGo (sep : Str) : Nat → Str → Str → List Str
  | 0, s, acc => [acc.reverse ++ s]
  | fuel + 1, s, acc =>
    match s with
    | [] => [acc.reverse]
    | c :: rest =>
      if sep.isPrefixOf (c :: rest) then
        acc.reverse :: splitGo sep fuel ((c :: rest).drop sep.length) []
      else
        splitGo sep fuel rest (c :: acc)

/-- Python's `s.split(sep)` for a non-empty separator (the source never
splits on an empty one). -/
def pySplit (s sep : Str) : List Str :=
  if sep = [] then [s] else splitGo sep (s.length + 1) s []

/-- Worker for `pySplitWs`. -/
def wordsGo : Str → Str → List Str
  | [], acc => if acc = [] then [] else [acc.reverse]
  | c :: rest, acc =>
    if c.isWhitespace then
      if acc = [] then wordsGo rest [] else acc.reverse :: wordsGo rest []
    else
      wordsGo rest (c :: acc)

/-- Python's `s.split()`: split on whitespace runs, dropping empty tokens. -/
def pySplitWs (s : Str) : List Str := wordsGo s []

/-- Python's `s.strip()`. -/
def pyStrip (s : Str) : Str :=
  ((s.dropWhile Char.isWhitespace).reverse.dropWhile Char.isWhitespace).reverse

/-- Python's `s.lower()` (ASCII approximation, as in the repository's data). -/
def pyLower (s : Str) : Str := s.map Char.toLower

/-- Python's `s.endswith(suf)`. -/
def pyEndsWith (s suf : Str) : Bool := suf.isSuffixOf s

/-- Python's `s[:-n]` for `0 < n ≤ len(s)` (drop the last `n` characters). -/
def pyDropRight (s : Str) (n : Nat) : Str := s.take (s.length - n)

/-- Worker for `pyTitle`: walk the characters keeping track of whether the
previous character was alphabetic. -/
def pyTitleGo : Str → Bool → Str
  | [], _ => []
  | c :: rest, prevAlpha =>
    if c.isAlpha then
      (if prevAlpha then c.toLower else c.toUpper) :: pyTitleGo rest true
    else
      c :: pyTitleGo rest false

/-- Python's `s.title()` (ASCII approximation): the first letter of every
alphabetic run is uppercased, the rest lowercased. -/
def pyTitle (s : Str) : Str := pyTitleGo s false

/-! ### Python numeric primitives -/

/-- Round-half-to-even to the nearest integer, as Python's builtin `round`. -/
def halfEvenZ (q : ℚ) : ℤ :=
  if q - ⌊q⌋ = 1/2 then (if 2 ∣ ⌊q⌋ then ⌊q⌋ else ⌊q⌋ + 1) else round q

/-- Python's `round(x, 2)`: round to two decimal places, half to even. -/
def pyRound2 (q : ℚ) : ℚ := (halfEvenZ (q * 100) : ℚ) / 100

/-- Python's `int()` applied to a real quantity: truncation toward zero. -/
def pyInt (q : ℚ) : ℤ := if 0 ≤ q then ⌊q⌋ else ⌈q⌉

/-! ### Events and state classification (src/database.py) -/

/-- One row of the `events` table as read by the analytics helpers: a
timestamp (seconds, exact) and the `event_type` string. -/
structure Ev where
  ts : ℚ
  kind : String
  deriving DecidableEq, Repr

/-- Membership in `('active', 'window_change', 'non_work_detected')`, the
set the segmenter classifies as active. -/
def isActiveKind (k : String) : Bool :=
  k = "active" || k = "window_change" || k = "non_work_detected"

/-- Membership in `('idle', 'idle_photo')`, the set the segmenter classifies
as idle. -/
def isIdleKind (k : String) : Bool :=
  k = "idle" || k = "idle_photo"

/-! ### Timeline segmenter: `_sum_active_idle` (src/database.py lines 522-567) -/

/-- Loop state of `_sum_active_idle`: accumulated active and idle minutes,
the previous timestamp, and whether the previous state is `'active'`. -/
structure SegSt where
  act : ℚ
  idl : ℚ
  pts : ℚ
  stActive : Bool
  deriving DecidableEq, Repr

/-- One iteration of the `for r in rows` loop of `_sum_active_idle`:
accrue `max(0, delta)` minutes to the bucket named by the previous state,
advance `prev_ts`, then reclassify `prev_state` from the current event's
kind (unknown kinds leave the state unchanged, as the `if`/`elif` does). -/
def segStep (s : SegSt) (e : Ev) : SegSt :=
  let delta := (e.ts - s.pts) / 60
  let act := if s.stActive then s.act + max 0 delta else s.act
  let idl := if s.stActive then s.idl else s.idl + max 0 delta
  let stA := if isActiveKind e.kind then true
             else if isIdleKind e.kind then false
             else s.stActive
  ⟨act, idl, e.ts, stA⟩

/-- The segmentation loop of `_sum_active_idle`, started from
`prev_ts = t0`, `prev_state = 'idle'`, zero accumulators. -/
def segLoop (rows : List Ev) (t0 : ℚ) : SegSt :=
  rows.foldl segStep ⟨0, 0, t0, false⟩

/-- `_sum_active_idle` before its final 2-decimal rounding: run the loop
from the first event's timestamp, then close the tail to the end of the
range whenever `end_dt > prev_ts`. -/
def sumActiveIdleRaw (rows : List Ev) (endT : ℚ) : ℚ × ℚ :=
  match rows with
  | [] => (0, 0)
  | r0 :: _ =>
    let s := segLoop rows r0.ts
    if s.pts < endT then
      let d := (endT - s.pts) / 60
      if s.stActive then (s.act + max 0 d, s.idl) else (s.act, s.idl + max 0 d)
    else (s.act, s.idl)

/-- `_sum_active_idle`: the empty-row early return bypasses rounding, every
other path returns the two sums rounded to two decimals. -/
def sumActiveIdle (rows : List Ev) (endT : ℚ) : ℚ × ℚ :=
  match rows with
  | [] => (0, 0)
  | _ :: _ =>
    (pyRound2 (sumActiveIdleRaw rows endT).1, pyRound2 (sumActiveIdleRaw rows endT).2)

/-! ### Sessions: `get_continuous_sessions` (src/database.py lines 276-305) -/

/-- A derived session record `start`/`end`/`duration_seconds` as built by
`get_continuous_sessions`. -/
structure Session where
  sStart : ℚ
  sEnd : ℚ
  durSec : ℤ
  deriving DecidableEq, Repr

/-- Membership in `('active', 'window_change')`: kinds that open a session. -/
def isOpenKind (k : String) : Bool :=
  k = "active" || k = "window_change"

/-- Membership in `('idle', 'idle_photo', 'non_work_detected')`: kinds that
close a session. -/
def isCloseKind (k : String) : Bool :=
  k = "idle" || k = "idle_photo" || k = "non_work_detected"

/-- One iteration of the `get_continuous_sessions` loop over
`(accumulated sessions, current_start)`. -/
def sessStep (p : List Session × Option ℚ) (e : Ev) : List Session × Option ℚ :=
  let cur := if isOpenKind e.kind && p.2.isNone then some e.ts else p.2
  match cur with
  | some s0 =>
    if isCloseKind e.kind then
      (p.1 ++ [⟨s0, e.ts, pyInt (e.ts - s0)⟩], none)
    else
      (p.1, some s0)
  | none => (p.1, none)

/-- `get_continuous_sessions` restricted to its algorithmic content: fold the
event rows, returning the list of closed sessions. -/
def getSessions (rows : List Ev) : List Session :=
  (rows.foldl sessStep ([], none)).1

/-- The spec's `get_timeline` view: active minutes, idle minutes and closed
sessions, combining `_sum_active_idle` and `get_continuous_sessions`. -/
structure Timeline where
  activeMin : ℚ
  idleMin : ℚ
  sessions : List Session
  deriving DecidableEq, Repr

/-- Timeline query assembled from the two analytics helpers. -/
def getTimeline (rows : List Ev) (endT : ℚ) : Timeline :=
  ⟨(sumActiveIdle rows endT).1, (sumActiveIdle rows endT).2, getSessions rows⟩

/-! ### Application identity normalizer (`_normalize`, `_display_from`,
src/database.py lines 701-746) -/

/-- The zero-width-space character removed by `_normalize`. -/
def zwspChar : Char := '\u200B'

/-- The fixed window-title separators, in the order the source iterates them. -/
def seps : List Str := [s2c " - ", s2c " | ", s2c " — ", s2c " :: "]

/-- One pass of the separator-cutting loop body of `_normalize` for a single
separator: when `sep` occurs in `n`, keep the last split part if it is shorter
than 8 characters, otherwise the first part. -/
def sepCut (n : Str) (sep : Str) : Str :=
  if hasSub n sep then
    if ((pySplit n sep).getLastD []).length < 8 then (pySplit n sep).getLastD []
    else (pySplit n sep).headD []
  else n

/-- The full separator-cutting loop of `_normalize`: fold `sepCut` over all
four separators in order. -/
def sepPhase (n : Str) : Str := seps.foldl sepCut n

/-- The alias table of `_normalize`, in dict insertion order. -/
def aliasTable : List (Str × Str) :=
  [ (s2c "chrome", s2c "chrome"), (s2c "msedge", s2c "edge"),
    (s2c "microsoft edge", s2c "edge"), (s2c "brave", s2c "brave"),
    (s2c "firefox", s2c "firefox"), (s2c "opera", s2c "opera"),
    (s2c "code", s2c "vscode"), (s2c "visual studio code", s2c "vscode"),
    (s2c "winword", s2c "word"), (s2c "word", s2c "word"),
    (s2c "excel", s2c "excel"), (s2c "powerpnt", s2c "powerpoint"),
    (s2c "powerpoint", s2c "powerpoint"), (s2c "outlook", s2c "outlook"),
    (s2c "teams", s2c "teams"), (s2c "slack", s2c "slack"),
    (s2c "discord", s2c "discord"), (s2c "explorer", s2c "explorer"),
    (s2c "notepad", s2c "notepad"), (s2c "notepad++", s2c "notepad++"),
    (s2c "pycharm", s2c "pycharm"), (s2c "idea64", s2c "intellij"),
    (s2c "studio64", s2c "android-studio"), (s2c "zoom", s2c "zoom"),
    (s2c "whatsapp", s2c "whatsapp"), (s2c "telegram", s2c "telegram") ]

/-- The normalized string `_normalize` matches against the alias table:
strip, cut separators, remove zero-width spaces, strip again, lowercase,
drop a trailing `.exe`, keep only the last path component. -/
def normCore (name : Str) : Str :=
  let n := sepPhase (pyStrip name)
  let n := pyStrip (n.filter (fun c => c ≠ zwspChar))
  let n := pyLower n
  let n := if pyEndsWith n (s2c ".exe") then pyDropRight n 4 else n
  ((pySplit ((pySplit n (s2c "\\")).getLastD []) (s2c "/")).getLastD [])

/-- `_normalize`: falsy input maps to `"unknown"`; otherwise the first alias
whose key occurs in the normalized string wins; otherwise fall back to the
first whitespace token.  `none` models the `IndexError` Python raises from
`n.split()[0]` when the normalized string has no token. -/
def normalizeKey (name : Str) : Option Str :=
  if name = [] then some (s2c "unknown")
  else
    match aliasTable.find? (fun p => hasSub (normCore name) p.1) with
    | some p => some p.2
    | none => (pySplitWs (normCore name)).head?

/-- SQL `COALESCE(process_name, active_window)` used by `get_apps_usage`. -/
def coalesceApp (title process : Option Str) : Option Str :=
  match process with
  | some p => some p
  | none => title

/-- Python's `app or 'Unknown'` applied to the coalesced raw name. -/
def rawOrUnknown (app : Option Str) : Str :=
  match app with
  | some s => if s = [] then s2c "Unknown" else s
  | none => s2c "Unknown"

/-- Canonical key of a raw `(active_window, process_name)` pair, as
`get_apps_usage` computes it. -/
def keyOfPair (title process : Option Str) : Option Str :=
  normalizeKey (rawOrUnknown (coalesceApp title process))

/-- First element of minimal length, as Python's `min(parts, key=len)`. -/
def minByLen : List Str → Str
  | [] => []
  | [x] => x
  | x :: y :: rest =>
    let m := minByLen (y :: rest)
    if x.length ≤ m.length then x else m

/-- The separator-splitting part of `_display_from`: split on the first
separator present, drop parts containing path separators (falling back to
the whole string when none survive), and keep the shortest part. -/
def displayCut (txt : Str) : Str :=
  match seps.find? (fun sep => hasSub txt sep) with
  | none => txt
  | some sep =>
    let parts := (pySplit txt sep).filter
        (fun p => !(hasSub p (s2c "/")) && !(hasSub p (s2c "\\")))
    minByLen (if parts = [] then [txt] else parts)

/-- `_display_from`: falsy input maps to `"Unknown"`; otherwise strip, cut by
the first separator present, truncate to 80 characters. -/
def displayFrom (raw : Str) : Str :=
  if raw = [] then s2c "Unknown" else (displayCut (pyStrip raw)).take 80

/-! ### Ingestion buffer (`ActivityDetector`, src/activity_detector.py) and
`log_movement_batch` (src/database.py lines 180-192) -/

/-- One movement record `(timestamp, kind, detail, distance)` accumulated by
the detector. -/
structure MovEv where
  ts : String
  kind : String
  detail : String
  dist : ℚ
  deriving DecidableEq, Repr

/-- The buffer's observable state: the in-memory batch and the
`movement_logs` rows already persisted. -/
structure Buf where
  batch : List MovEv
  store : List MovEv
  deriving DecidableEq, Repr

/-- `ActivityDetector._add_event`: append under the lock, and flush inline —
persist the whole batch and clear it — once the batch length reaches 50. -/
def addEvent (b : Buf) (e : MovEv) : Buf :=
  let nb := b.batch ++ [e]
  if 50 ≤ nb.length then ⟨[], b.store ++ nb⟩ else ⟨nb, b.store⟩

/-- `ActivityDetector._flush_batch` with a store that may reject the write
(`storeOk = false` models `log_movement_batch` raising).  The exception
propagates before `movement_events.clear()` runs, so on failure the batch is
untouched; an empty batch skips the store call entirely. -/
def flushBatch (storeOk : Bool) (b : Buf) : Except String Unit × Buf :=
  if b.batch.isEmpty then (Except.ok (), b)
  else if storeOk then (Except.ok (), ⟨[], b.store ++ b.batch⟩)
  else (Except.error "store write failed", b)

/-! ### Per-app usage: `get_apps_usage` (src/database.py lines 676-786) -/

/-- One row of the `get_apps_usage` query: timestamp, event type and the
coalesced `COALESCE(process_name, active_window)` application string. -/
structure ARow where
  ts : ℚ
  kind : String
  app : Option Str
  deriving DecidableEq, Repr

/-- One output entry `{'app': ..., 'key': ..., 'minutes': ...}`. -/
structure AppItem where
  app : Str
  key : Str
  minutes : ℚ
  deriving DecidableEq, Repr

/-- Ordered-dict update `d[k] = d.get(k, 0.0) + v`: existing keys keep their
position, new keys are appended. -/
def updAdd : List (Str × ℚ) → Str → ℚ → List (Str × ℚ)
  | [], k, v => [(k, v)]
  | (k0, v0) :: rest, k, v =>
    if k0 = k then (k0, v0 + v) :: rest else (k0, v0) :: updAdd rest k v

/-- Ordered-dict lookup. -/
def alookup {β : Type} : List (Str × β) → Str → Option β
  | [], _ => none
  | (k0, v) :: rest, k => if k0 = k then some v else alookup rest k

/-- Insert-if-absent, `if k not in d: d[k] = v`. -/
def insAbsent (m : List (Str × Str)) (k v : Str) : List (Str × Str) :=
  if (alookup m k).isSome then m else m ++ [(k, v)]

/-- Loop state of `get_apps_usage`: the two ordered dicts and the
`prev_ts` / `prev_raw` / `prev_key` / `prev_state` variables. -/
structure AppSt where
  minutes : List (Str × ℚ)
  names : List (Str × Str)
  prevTs : ℚ
  prevRaw : Str
  prevKey : Str
  active : Bool
  deriving DecidableEq, Repr

/-- One iteration of the `get_apps_usage` loop: credit `max(0, delta)` to the
previous key while active, then on an active-class event refresh
`prev_raw` (`raw or prev_raw`) and recompute the key (`none` models the
normalizer raising). -/
def appStep (st : AppSt) (r : ARow) : Option AppSt :=
  let delta := (r.ts - st.prevTs) / 60
  let minutes := if st.active then updAdd st.minutes st.prevKey (max 0 delta) else st.minutes
  let names := if st.active then insAbsent st.names st.prevKey (displayFrom st.prevRaw) else st.names
  if isActiveKind r.kind then
    let raw := match r.app with
               | some s => if s = [] then st.prevRaw else s
               | none => st.prevRaw
    match normalizeKey raw with
    | none => none
    | some k => some ⟨minutes, names, r.ts, raw, k, true⟩
  else if isIdleKind r.kind then
    some ⟨minutes, names, r.ts, st.prevRaw, st.prevKey, false⟩
  else
    some ⟨minutes, names, r.ts, st.prevRaw, st.prevKey, st.active⟩

/-- Shared output comprehension of `get_apps_usage` and
`get_company_apps_usage`: sort the per-key totals descending by minutes
(stably, as Python's `sorted`), keep strictly positive totals, and emit
`{'app': label, 'key': key, 'minutes': round(v, 2)}`. -/
def appsOut (minutes : List (Str × ℚ)) (names : List (Str × Str)) : List AppItem :=
  ((minutes.mergeSort (fun a b => decide (b.2 ≤ a.2))).filter
      (fun kv => decide (0 < kv.2))).map
    (fun kv => ⟨(alookup names kv.1).getD (pyTitle kv.1), kv.1, pyRound2 kv.2⟩)

/-- Body of `get_apps_usage` once the tail bound
`tail_end = min(datetime.utcnow(), day_end)` has been computed: initialize
from the first row, run the loop, close the final active segment up to
`tailEnd`, and emit the ranked output.  `none` models the `IndexError` the
normalizer can raise. -/
def getAppsUsageAt (rows : List ARow) (tailEnd : ℚ) : Option (List AppItem) :=
  match rows with
  | [] => some []
  | r0 :: _ =>
    let raw0 := rawOrUnknown r0.app
    match normalizeKey raw0 with
    | none => none
    | some k0 =>
      match rows.foldlM appStep ⟨[], [], r0.ts, raw0, k0, false⟩ with
      | none => none
      | some st =>
        if st.active then
          if st.prevTs < tailEnd then
            some (appsOut
              (updAdd st.minutes st.prevKey (max 0 ((tailEnd - st.prevTs) / 60)))
              (insAbsent st.names st.prevKey (displayFrom st.prevRaw)))
          else some (appsOut st.minutes st.names)
        else some (appsOut st.minutes st.names)

/-- `get_apps_usage` on the rows the query returned, with the day-end bound
and the wall clock (`datetime.utcnow()`) as explicit inputs. -/
def getAppsUsage (rows : List ARow) (dayEnd now : ℚ) : Option (List AppItem) :=
  getAppsUsageAt rows (min now dayEnd)

/-! ### Company rollup: `get_company_apps_usage` (src/database.py lines 868-896) -/

/-- Accumulator of the rollup: shared totals and first-seen labels. -/
structure RollSt where
  totals : List (Str × ℚ)
  names : List (Str × Str)
  deriving DecidableEq, Repr

/-- Fold one per-employee item into the shared mapping:
`key = item['key'] or item['app'].lower()`, add the minutes, keep the
first-seen label (`item['app'] or key.title()`). -/
def rollItem (st : RollSt) (it : AppItem) : RollSt :=
  let k := if it.key = [] then pyLower it.app else it.key
  ⟨updAdd st.totals k it.minutes,
   insAbsent st.names k (if it.app = [] then pyTitle k else it.app)⟩

/-- `get_company_apps_usage` on the per-employee usage lists: fold every
item of every employee into one shared mapping, then emit sorted descending
and positive-only, exactly as `get_apps_usage` does. -/
def companyAppsUsage (perEmp : List (List AppItem)) : List AppItem :=
  let st := perEmp.foldl (fun s apps => apps.foldl rollItem s) ⟨[], []⟩
  appsOut st.totals st.names

/-- Modelled from the spec: the claimed separator behaviour of §4.3 — split on
the first separator found (in the fixed order) and keep exactly one side of
that single split: the trailing side when it is under 8 characters, otherwise
the left side.  Used only to compare the specified behaviour against
`sepPhase`, the behaviour of the code. -/
def claimedSepCut (n : Str) : Str :=
  match seps.find? (fun sep => hasSub n sep) with
  | none => n
  | some sep =>
    if ((pySplit n sep).getLastD []).length < 8 then (pySplit n sep).getLastD []
    else (pySplit n sep).headD []

/-- Invariant of the `get_continuous_sessions` loop: every closed session is
well-formed (`start ≤ end`, duration as computed, non-negative) and ends at
or before the last processed timestamp `lb`; closed sessions are pairwise
ordered; and an open session start is at or before `lb` and after every
closed session's end. -/
def SessInv (acc : List Session) (cur : Option ℚ) (lb : ℚ) : Prop :=
  (∀ s ∈ acc,
     s.sStart ≤ s.sEnd ∧ s.durSec = pyInt (s.sEnd - s.sStart) ∧
     0 ≤ s.durSec ∧ s.sEnd ≤ lb) ∧
  acc.Pairwise (fun a b => a.sEnd ≤ b.sStart) ∧
  (∀ c ∈ cur, c ≤ lb ∧ ∀ s ∈ acc, s.sEnd ≤ c)

/-! ### Theorems -/

/-- C7: for an empty event window the timeline query returns zero active
minutes, zero idle minutes and no sessions — an empty window is not an
error. -/
theorem c7_empty_window_all_zero (endT : ℚ) : getTimeline [] endT = ⟨0, 0, []⟩ := rfl

/-- C2: after the segmentation loop, whenever the query's end boundary is
strictly later than the last processed timestamp, `_sum_active_idle` adds
`end − prev_ts` minutes to the active bucket when the last-classified state
is active, and to the idle bucket otherwise. -/
theorem c2_tail_closing (r0 : Ev) (rest : List Ev) (endT : ℚ)
    (h : (segLoop (r0 :: rest) r0.ts).pts < endT) :
    sumActiveIdleRaw (r0 :: rest) endT =
      if (segLoop (r0 :: rest) r0.ts).stActive then
        ((segLoop (r0 :: rest) r0.ts).act + (endT - (segLoop (r0 :: rest) r0.ts).pts) / 60,
         (segLoop (r0 :: rest) r0.ts).idl)
      else
        ((segLoop (r0 :: rest) r0.ts).act,
         (segLoop (r0 :: rest) r0.ts).idl + (endT - (segLoop (r0 :: rest) r0.ts).pts) / 60) := by
  have hd : (0:ℚ) ≤ (endT - (segLoop (r0 :: rest) r0.ts).pts) / 60 := by
    apply div_nonneg _ (by norm_num)
    linarith
  simp only [sumActiveIdleRaw, if_pos h, max_eq_right hd]

/-- Witness for C2 at a concrete input: one `active` event at time 0,
window end at 60 seconds. -/
theorem c2_tail_closing_witness :
    (segLoop [({ ts := 0, kind := "active" } : Ev)] 0).pts < 60 ∧
    sumActiveIdleRaw [({ ts := 0, kind := "active" } : Ev)] 60 =
      if (segLoop [({ ts := 0, kind := "active" } : Ev)] 0).stActive then
        ((segLoop [({ ts := 0, kind := "active" } : Ev)] 0).act +
           (60 - (segLoop [({ ts := 0, kind := "active" } : Ev)] 0).pts) / 60,
         (segLoop [({ ts := 0, kind := "active" } : Ev)] 0).idl)
      else
        ((segLoop [({ ts := 0, kind := "active" } : Ev)] 0).act,
         (segLoop [({ ts := 0, kind := "active" } : Ev)] 0).idl +
           (60 - (segLoop [({ ts := 0, kind := "active" } : Ev)] 0).pts) / 60) := by
  have h : (segLoop [({ ts := 0, kind := "active" } : Ev)] 0).pts < 60 := by
    show (0:ℚ) < 60
    norm_num
  exact ⟨h, c2_tail_closing { ts := 0, kind := "active" } [] 60 h⟩

/-- C3: starting from any buffer state, appending movement records one at a
time so that the in-memory batch reaches exactly 50 records auto-flushes:
afterwards the batch is empty and the store has grown by 50 rows. -/
theorem c3_flush_threshold (b : Buf) (es : List MovEv) (hne : es ≠ [])
    (hlen : b.batch.length + es.length = 50) :
    (es.foldl addEvent b).batch = [] ∧
    (es.foldl addEvent b).store.length = b.store.length + 50 := by
  induction es generalizing b with
  | nil => exact absurd rfl hne
  | cons e rest ih =>
    cases rest with
    | nil =>
      have hlen49 : b.batch.length = 49 := by simpa using hlen
      simp [addEvent, List.length_append, hlen49]
    | cons e2 rest2 =>
      have hcond : ¬ (50 ≤ b.batch.length + 1) := by
        simp only [List.length_cons] at hlen
        omega
      have hstep : addEvent b e = ⟨b.batch ++ [e], b.store⟩ := by
        simp [addEvent, List.length_append, hcond]
      rw [List.foldl_cons, hstep]
      exact ih _ (by simp)
        (by simp only [List.length_cons] at hlen ⊢
            simp only [List.length_append, List.length_cons, List.length_nil]
            omega)

/-- Witness for C3: a batch of 49 records plus one appended record. -/
theorem c3_flush_threshold_witness :
    ([({ ts := "t1", kind := "mouse_move", detail := "d", dist := 0 } : MovEv)] ≠ []) ∧
    ((⟨List.replicate 49 { ts := "t0", kind := "key_press", detail := "k", dist := 0 },
       []⟩ : Buf)).batch.length +
      [({ ts := "t1", kind := "mouse_move", detail := "d", dist := 0 } : MovEv)].length = 50 ∧
    (([({ ts := "t1", kind := "mouse_move", detail := "d", dist := 0 } : MovEv)].foldl addEvent
        ⟨List.replicate 49 { ts := "t0", kind := "key_press", detail := "k", dist := 0 },
         []⟩).batch = [] ∧
     ([({ ts := "t1", kind := "mouse_move", detail := "d", dist := 0 } : MovEv)].foldl addEvent
        ⟨List.replicate 49 { ts := "t0", kind := "key_press", detail := "k", dist := 0 },
         []⟩).store.length =
       (⟨List.replicate 49 { ts := "t0", kind := "key_press", detail := "k", dist := 0 },
         []⟩ : Buf).store.length + 50) := by
  refine ⟨by simp, by simp, c3_flush_threshold _ _ (by simp) (by simp)⟩

/-- C8: when the store rejects the write during a non-trivial flush, the
failure is surfaced to the caller and the in-memory batch is left intact, so
the very same records are persisted by a later successful retry. -/
theorem c8_flush_failure_atomic (b : Buf) (h : b.batch ≠ []) :
    flushBatch false b = (Except.error "store write failed", b) ∧
    flushBatch true b = (Except.ok (), ⟨[], b.store ++ b.batch⟩) := by
  have hne : b.batch.isEmpty = false := by simpa [List.isEmpty_iff] using h
  exact ⟨by simp [flushBatch, hne], by simp [flushBatch, hne]⟩

/-- Witness for C8: a buffer holding one unflushed record. -/
theorem c8_flush_failure_atomic_witness :
    ((⟨[{ ts := "t", kind := "mouse_click", detail := "left", dist := 0 }], []⟩ : Buf).batch ≠ []) ∧
    (flushBatch false ⟨[{ ts := "t", kind := "mouse_click", detail := "left", dist := 0 }], []⟩ =
       (Except.error "store write failed",
        ⟨[{ ts := "t", kind := "mouse_click", detail := "left", dist := 0 }], []⟩) ∧
     flushBatch true ⟨[{ ts := "t", kind := "mouse_click", detail := "left", dist := 0 }], []⟩ =
       (Except.ok (),
        ⟨[], [] ++ [{ ts := "t", kind := "mouse_click", detail := "left", dist := 0 }]⟩)) := by
  refine ⟨by simp, c8_flush_failure_atomic _ (by simp)⟩

/-- C9 counterexample: on `"doc - b | c"` the code's separator loop keeps
`"c"`, which is neither side of the split on the first separator found
(`" - "`), while the claimed single-split rule keeps `"b | c"`. -/
theorem c9_counterexample :
    sepPhase (s2c "doc - b | c") = s2c "c" ∧
    claimedSepCut (s2c "doc - b | c") = s2c "b | c" ∧
    s2c "c" ≠ s2c "b | c" := by decide

/-- C9 amended: the separator loop iterates over all four separators in
order, re-cutting the already-cut string; for each separator present it
splits on all its occurrences and keeps the last part when that part is
under 8 characters, otherwise the first part. -/
theorem c9_amended_sep_loop (n sep : Str) (_hsep : sep ∈ seps)
    (hin : hasSub n sep = true) :
    sepPhase n = seps.foldl sepCut n ∧
    (((pySplit n sep).getLastD []).length < 8 →
      sepCut n sep = (pySplit n sep).getLastD []) ∧
    (¬ ((pySplit n sep).getLastD []).length < 8 →
      sepCut n sep = (pySplit n sep).headD []) := by
  refine ⟨rfl, fun hl => ?_, fun hl => ?_⟩
  · unfold sepCut
    rw [if_pos hin, if_pos hl]
  · unfold sepCut
    rw [if_pos hin, if_neg hl]

/-- Witness for C9 amended: the string `"ab - cd"` and the separator `" - "`. -/
theorem c9_amended_sep_loop_witness :
    (s2c " - ") ∈ seps ∧ hasSub (s2c "ab - cd") (s2c " - ") = true ∧
    (sepPhase (s2c "ab - cd") = seps.foldl sepCut (s2c "ab - cd") ∧
     (((pySplit (s2c "ab - cd") (s2c " - ")).getLastD []).length < 8 →
       sepCut (s2c "ab - cd") (s2c " - ") = (pySplit (s2c "ab - cd") (s2c " - ")).getLastD []) ∧
     (¬ ((pySplit (s2c "ab - cd") (s2c " - ")).getLastD []).length < 8 →
       sepCut (s2c "ab - cd") (s2c " - ") = (pySplit (s2c "ab - cd") (s2c " - ")).headD [])) := by
  refine ⟨by decide, by decide, c9_amended_sep_loop _ _ (by decide) (by decide)⟩

/-- C5: the normalizer maps the pair `("chrome.exe", None)` and the pair
`("Google Chrome - New Tab", "chrome.exe")` to the same canonical key
`"chrome"` (the process name wins the coalesce); any raw string whose
normalized form contains `"chrome"` yields key `"chrome"` (first alias
entry); and a non-falsy raw string matching no alias entry falls back to the
first whitespace token of its normalized form. -/
theorem c5_normalizer (u s t : Str) (rest : List Str)
    (hu : hasSub (normCore u) (s2c "chrome") = true)
    (hs : s ≠ [])
    (hfind : aliasTable.find? (fun p => hasSub (normCore s) p.1) = none)
    (htok : pySplitWs (normCore s) = t :: rest) :
    keyOfPair (some (s2c "chrome.exe")) none
      = keyOfPair (some (s2c "Google Chrome - New Tab")) (some (s2c "chrome.exe")) ∧
    keyOfPair (some (s2c "chrome.exe")) none = some (s2c "chrome") ∧
    normalizeKey u = some (s2c "chrome") ∧
    normalizeKey s = some t := by
  refine ⟨by decide, by decide, ?_, ?_⟩
  · have hu0 : u ≠ [] := by
      intro h
      subst h
      revert hu
      decide
    have hfu : aliasTable.find? (fun p => hasSub (normCore u) p.1)
        = some (s2c "chrome", s2c "chrome") := by
      simp only [aliasTable]
      exact List.find?_cons_of_pos _ (by simpa using hu)
    unfold normalizeKey
    rw [if_neg hu0, hfu]
  · unfold normalizeKey
    rw [if_neg hs, hfind, htok]
    rfl

/-- Witness for C5: `"chrome time"` exercises the chrome-substring rule and
`"myapp v2"` the first-token fallback. -/
theorem c5_normalizer_witness :
    hasSub (normCore (s2c "chrome time")) (s2c "chrome") = true ∧
    (s2c "myapp v2" ≠ []) ∧
    aliasTable.find? (fun p => hasSub (normCore (s2c "myapp v2")) p.1) = none ∧
    pySplitWs (normCore (s2c "myapp v2")) = [s2c "myapp", s2c "v2"] ∧
    (keyOfPair (some (s2c "chrome.exe")) none
       = keyOfPair (some (s2c "Google Chrome - New Tab")) (some (s2c "chrome.exe")) ∧
     keyOfPair (some (s2c "chrome.exe")) none = some (s2c "chrome") ∧
     normalizeKey (s2c "chrome time") = some (s2c "chrome") ∧
     normalizeKey (s2c "myapp v2") = some (s2c "myapp")) := by
  refine ⟨by decide, by decide, by decide, by decide,
    c5_normalizer _ _ _ [s2c "v2"] (by decide) (by decide) (by decide) (by decide)⟩

/-- Helper for C1: over a chain of non-decreasing timestamps whose head is
at or after the initial `prev_ts`, the segmentation loop increases
`act + idl` by exactly the elapsed time in minutes, never moves `prev_ts`
backwards, and ends with `prev_ts` equal to the initial value or to some
event's timestamp. -/
theorem seg_foldl_sum (rows : List Ev) (s : SegSt)
    (hchain : List.Chain' (fun a b => a.ts ≤ b.ts) rows)
    (hhead : ∀ e ∈ rows.head?, s.pts ≤ e.ts) :
    (rows.foldl segStep s).act + (rows.foldl segStep s).idl
        = s.act + s.idl + ((rows.foldl segStep s).pts - s.pts) / 60 ∧
    s.pts ≤ (rows.foldl segStep s).pts ∧
    ((rows.foldl segStep s).pts = s.pts ∨ ∃ e ∈ rows, (rows.foldl segStep s).pts = e.ts) := by
  induction rows generalizing s with
  | nil => simp
  | cons e rest ih =>
    have hse : s.pts ≤ e.ts := hhead e (by simp)
    have hd : (0:ℚ) ≤ (e.ts - s.pts) / 60 := div_nonneg (by linarith) (by norm_num)
    have hstep_sum : (segStep s e).act + (segStep s e).idl
        = s.act + s.idl + (e.ts - s.pts) / 60 := by
      simp only [segStep]
      cases hb : s.stActive <;> simp [max_eq_right hd] <;> ring
    have hstep_pts : (segStep s e).pts = e.ts := rfl
    obtain ⟨hR, hchain2⟩ := List.chain'_cons'.mp hchain
    obtain ⟨ih1, ih2, ih3⟩ := ih (segStep s e) hchain2
      (by intro h hh; rw [hstep_pts]; exact hR h hh)
    rw [List.foldl_cons]
    refine ⟨?_, ?_, ?_⟩
    · rw [ih1, hstep_sum, hstep_pts]
      ring
    · exact le_trans hse (hstep_pts ▸ ih2)
    · rcases ih3 with h | ⟨e2, he2, hts⟩
      · exact Or.inr ⟨e, by simp, by rw [h, hstep_pts]⟩
      · exact Or.inr ⟨e2, by simp [he2], hts⟩

/-- Helper: the banker's rounding of an integer is itself. -/
theorem halfEvenZ_intCast (n : ℤ) : halfEvenZ (n : ℚ) = n := by
  unfold halfEvenZ
  rw [Int.floor_intCast, if_neg, round_intCast]
  norm_num

/-- Helper: two-decimal rounding fixes integers. -/
theorem pyRound2_intCast (n : ℤ) : pyRound2 (n : ℚ) = n := by
  unfold pyRound2
  have h : ((n:ℚ) * 100) = ((100 * n : ℤ) : ℚ) := by push_cast; ring
  rw [h, halfEvenZ_intCast]
  push_cast
  ring

/-- C1 counterexample: a window `[0, 1200]` (seconds) covering one `active`
event at `t = 600` yields `active + idle = 10` minutes, not
`(end − start) = 20` minutes: the gap before the first event is never
counted. -/
theorem c1_counterexample :
    sumActiveIdle [({ ts := 600, kind := "active" } : Ev)] 1200 = (10, 0) ∧
    ¬ ((10:ℚ) + 0 = (1200 - 0) / 60) := by
  constructor
  · have hraw : sumActiveIdleRaw [({ ts := 600, kind := "active" } : Ev)] 1200 = (10, 0) := by
      norm_num [sumActiveIdleRaw, segLoop, segStep, isActiveKind, isIdleKind, max_def]
    have hz : pyRound2 0 = 0 := by simpa using pyRound2_intCast 0
    have h10 : pyRound2 10 = 10 := by simpa using pyRound2_intCast 10
    simp only [sumActiveIdle, hraw, h10, hz]
  · norm_num

/-- Helper: the tail-closing branch of `_sum_active_idle`, max-clamp
removed since the tail delta is positive. -/
theorem sumRaw_eq_tail (r0 : Ev) (rest : List Ev) (endT : ℚ)
    (h : (segLoop (r0 :: rest) r0.ts).pts < endT) :
    sumActiveIdleRaw (r0 :: rest) endT =
      if (segLoop (r0 :: rest) r0.ts).stActive then
        ((segLoop (r0 :: rest) r0.ts).act + (endT - (segLoop (r0 :: rest) r0.ts).pts) / 60,
         (segLoop (r0 :: rest) r0.ts).idl)
      else
        ((segLoop (r0 :: rest) r0.ts).act,
         (segLoop (r0 :: rest) r0.ts).idl + (endT - (segLoop (r0 :: rest) r0.ts).pts) / 60) := by
  have hd : (0:ℚ) ≤ (endT - (segLoop (r0 :: rest) r0.ts).pts) / 60 := by
    apply div_nonneg _ (by norm_num)
    linarith
  simp only [sumActiveIdleRaw, if_pos h, max_eq_right hd]

/-- Helper: when the end boundary is not beyond the last processed
timestamp, `_sum_active_idle` returns the loop accumulators unchanged. -/
theorem sumRaw_eq_noTail (r0 : Ev) (rest : List Ev) (endT : ℚ)
    (h : ¬ (segLoop (r0 :: rest) r0.ts).pts < endT) :
    sumActiveIdleRaw (r0 :: rest) endT =
      ((segLoop (r0 :: rest) r0.ts).act, (segLoop (r0 :: rest) r0.ts).idl) := by
  simp only [sumActiveIdleRaw, if_neg h]

/-- C1 amended: for a sorted, non-empty event list whose events all lie at or
before the window end, the unrounded active and idle sums of
`_sum_active_idle` add up to `(end − first event's timestamp)` minutes — the
window's own start never enters the computation. -/
theorem c1_amended_window_sum (r0 : Ev) (rest : List Ev) (endT : ℚ)
    (hchain : List.Chain' (fun a b => a.ts ≤ b.ts) (r0 :: rest))
    (hend : ∀ e ∈ r0 :: rest, e.ts ≤ endT) :
    (sumActiveIdleRaw (r0 :: rest) endT).1 + (sumActiveIdleRaw (r0 :: rest) endT).2
      = (endT - r0.ts) / 60 := by
  obtain ⟨h1, h2, h3⟩ := seg_foldl_sum (r0 :: rest) ⟨0, 0, r0.ts, false⟩ hchain
    (by intro e he
        simp only [List.head?_cons, Option.mem_def, Option.some.injEq] at he
        subst he
        exact le_refl _)
  have h1s : (segLoop (r0 :: rest) r0.ts).act + (segLoop (r0 :: rest) r0.ts).idl
      = 0 + 0 + ((segLoop (r0 :: rest) r0.ts).pts - r0.ts) / 60 := h1
  have hple : (segLoop (r0 :: rest) r0.ts).pts ≤ endT := by
    rcases h3 with h | ⟨e, he, hts⟩
    · show ((r0 :: rest).foldl segStep ⟨0, 0, r0.ts, false⟩).pts ≤ endT
      rw [h]
      exact hend r0 (by simp)
    · show ((r0 :: rest).foldl segStep ⟨0, 0, r0.ts, false⟩).pts ≤ endT
      rw [hts]
      exact hend e he
  have hring : ((segLoop (r0 :: rest) r0.ts).pts - r0.ts) / 60
      + (endT - (segLoop (r0 :: rest) r0.ts).pts) / 60 = (endT - r0.ts) / 60 := by
    ring
  by_cases hlt : (segLoop (r0 :: rest) r0.ts).pts < endT
  · rw [sumRaw_eq_tail r0 rest endT hlt]
    cases hb : (segLoop (r0 :: rest) r0.ts).stActive
    · rw [if_neg Bool.false_ne_true]
      dsimp only
      linarith
    · rw [if_pos rfl]
      dsimp only
      linarith
  · have heq : (segLoop (r0 :: rest) r0.ts).pts = endT := le_antisymm hple (not_lt.mp hlt)
    rw [sumRaw_eq_noTail r0 rest endT hlt]
    rw [heq] at h1s
    simpa using h1s

/-- Witness for C1 amended: two sorted events inside the window `[0, 120]`. -/
theorem c1_amended_window_sum_witness :
    List.Chain' (fun a b => a.ts ≤ b.ts)
      [({ ts := 0, kind := "active" } : Ev), { ts := 60, kind := "idle" }] ∧
    (∀ e ∈ [({ ts := 0, kind := "active" } : Ev), { ts := 60, kind := "idle" }],
      e.ts ≤ 120) ∧
    (sumActiveIdleRaw [({ ts := 0, kind := "active" } : Ev), { ts := 60, kind := "idle" }]
          120).1 +
      (sumActiveIdleRaw [({ ts := 0, kind := "active" } : Ev), { ts := 60, kind := "idle" }]
          120).2 = (120 - 0) / 60 := by
  have hch : List.Chain' (fun a b : Ev => a.ts ≤ b.ts)
      [({ ts := 0, kind := "active" } : Ev), { ts := 60, kind := "idle" }] := by
    refine List.chain'_cons.mpr ⟨?_, List.chain'_singleton _⟩
    show (0:ℚ) ≤ 60
    norm_num
  have hend : ∀ e ∈ [({ ts := 0, kind := "active" } : Ev), { ts := 60, kind := "idle" }],
      e.ts ≤ 120 := by
    intro e he
    simp only [List.mem_cons, List.not_mem_nil, or_false] at he
    rcases he with rfl | rfl
    · show (0:ℚ) ≤ 120
      norm_num
    · show (60:ℚ) ≤ 120
      norm_num
  exact ⟨hch, hend, c1_amended_window_sum _ _ _ hch hend⟩

/-- Helper: the open-kinds and close-kinds of `get_continuous_sessions` are
disjoint. -/
theorem open_not_close (k : String) (h : isOpenKind k = true) :
    isCloseKind k = false := by
  simp only [isOpenKind, Bool.or_eq_true, decide_eq_true_eq] at h
  rcases h with h | h <;> subst h <;> decide

/-- Helper: a session-opening event on a closed state opens at its own
timestamp. -/
theorem sessStep_open (acc : List Session) (e : Ev) (h : isOpenKind e.kind = true) :
    sessStep (acc, none) e = (acc, some e.ts) := by
  have hc := open_not_close e.kind h
  simp [sessStep, h, hc]

/-- Helper: a non-opening event on a closed state leaves it closed. -/
theorem sessStep_none (acc : List Session) (e : Ev) (h : isOpenKind e.kind = false) :
    sessStep (acc, none) e = (acc, none) := by
  simp [sessStep, h]

/-- Helper: a session-closing event on an open state appends the closed
session and resets. -/
theorem sessStep_close (acc : List Session) (c : ℚ) (e : Ev)
    (h : isCloseKind e.kind = true) :
    sessStep (acc, some c) e = (acc ++ [⟨c, e.ts, pyInt (e.ts - c)⟩], none) := by
  simp [sessStep, h]

/-- Helper: a non-closing event on an open state keeps the session open. -/
theorem sessStep_keep (acc : List Session) (c : ℚ) (e : Ev)
    (h : isCloseKind e.kind = false) :
    sessStep (acc, some c) e = (acc, some c) := by
  simp [sessStep, h]

/-- Helper: one loop iteration preserves the session invariant, moving the
bound to the processed event's timestamp. -/
theorem sessInv_step (acc : List Session) (cur : Option ℚ) (lb : ℚ) (e : Ev)
    (hinv : SessInv acc cur lb) (hle : lb ≤ e.ts) :
    SessInv (sessStep (acc, cur) e).1 (sessStep (acc, cur) e).2 e.ts := by
  obtain ⟨hall, hpw, hcur⟩ := hinv
  cases cur with
  | none =>
    cases hok : isOpenKind e.kind
    · rw [sessStep_none acc e hok]
      refine ⟨fun s hs => ?_, hpw, by simp⟩
      obtain ⟨h1, h2, h3, h4⟩ := hall s hs
      exact ⟨h1, h2, h3, h4.trans hle⟩
    · rw [sessStep_open acc e hok]
      refine ⟨fun s hs => ?_, hpw, ?_⟩
      · obtain ⟨h1, h2, h3, h4⟩ := hall s hs
        exact ⟨h1, h2, h3, h4.trans hle⟩
      · intro c hc
        simp only [Option.mem_def, Option.some.injEq] at hc
        subst hc
        exact ⟨le_refl _, fun s hs => ((hall s hs).2.2.2).trans hle⟩
  | some c =>
    obtain ⟨hclb, hcend⟩ := hcur c rfl
    have hce : c ≤ e.ts := hclb.trans hle
    cases hcl : isCloseKind e.kind
    · rw [sessStep_keep acc c e hcl]
      refine ⟨fun s hs => ?_, hpw, ?_⟩
      · obtain ⟨h1, h2, h3, h4⟩ := hall s hs
        exact ⟨h1, h2, h3, h4.trans hle⟩
      · intro c2 hc2
        simp only [Option.mem_def, Option.some.injEq] at hc2
        subst hc2
        exact ⟨hce, hcend⟩
    · rw [sessStep_close acc c e hcl]
      refine ⟨?_, ?_, by simp⟩
      · intro s hs
        rcases List.mem_append.mp hs with hs | hs
        · obtain ⟨h1, h2, h3, h4⟩ := hall s hs
          exact ⟨h1, h2, h3, h4.trans hle⟩
        · simp only [List.mem_singleton] at hs
          subst hs
          refine ⟨hce, rfl, ?_, le_refl _⟩
          show (0:ℤ) ≤ pyInt (e.ts - c)
          unfold pyInt
          rw [if_pos (by linarith)]
          exact Int.floor_nonneg.mpr (by linarith)
      · refine List.pairwise_append.mpr ⟨hpw, List.pairwise_singleton _ _, ?_⟩
        intro a ha b hb
        simp only [List.mem_singleton] at hb
        subst hb
        exact hcend a ha

/-- Helper: the session invariant is preserved by the whole loop over a
timestamp-sorted event list. -/
theorem sessInv_foldl (rows : List Ev) (acc : List Session) (cur : Option ℚ) (lb : ℚ)
    (hchain : List.Chain' (fun a b => a.ts ≤ b.ts) rows)
    (hhead : ∀ e ∈ rows.head?, lb ≤ e.ts)
    (hinv : SessInv acc cur lb) :
    ∃ lb2, SessInv (rows.foldl sessStep (acc, cur)).1
      (rows.foldl sessStep (acc, cur)).2 lb2 := by
  induction rows generalizing acc cur lb with
  | nil => exact ⟨lb, by simpa using hinv⟩
  | cons e rest ih =>
    obtain ⟨hR, hchain2⟩ := List.chain'_cons'.mp hchain
    have hle : lb ≤ e.ts := hhead e (by simp)
    have hstep := sessInv_step acc cur lb e hinv hle
    rw [List.foldl_cons]
    exact ih (sessStep (acc, cur) e).1 (sessStep (acc, cur) e).2 e.ts hchain2 hR hstep

/-- C10: over a timestamp-sorted event list, every session built by
`get_continuous_sessions` satisfies `start ≤ end` with
`duration_seconds = int(end − start) ≥ 0`, and the returned sessions are
chained — each closes at or before the next one opens, so no two overlap. -/
theorem c10_sessions_invariant (rows : List Ev)
    (hchain : List.Chain' (fun a b => a.ts ≤ b.ts) rows) :
    (∀ s ∈ getSessions rows,
       s.sStart ≤ s.sEnd ∧ s.durSec = pyInt (s.sEnd - s.sStart) ∧ 0 ≤ s.durSec) ∧
    (getSessions rows).Pairwise (fun a b => a.sEnd ≤ b.sStart) := by
  cases rows with
  | nil => exact ⟨by simp [getSessions], by simp [getSessions]⟩
  | cons r0 rest =>
    obtain ⟨lb2, hall, hpw, _⟩ := sessInv_foldl (r0 :: rest) [] none r0.ts hchain
      (by intro e he
          simp only [List.head?_cons, Option.mem_def, Option.some.injEq] at he
          subst he
          exact le_refl _)
      ⟨by simp, by simp, by simp⟩
    refine ⟨fun s hs => ?_, hpw⟩
    obtain ⟨h1, h2, h3, _⟩ := hall s hs
    exact ⟨h1, h2, h3⟩

/-- Witness for C10: an `active` event at 0 closed by an `idle` event at 61.5
seconds (duration truncates to 61). -/
theorem c10_sessions_invariant_witness :
    List.Chain' (fun a b : Ev => a.ts ≤ b.ts)
      [({ ts := 0, kind := "active" } : Ev), { ts := 123/2, kind := "idle" }] ∧
    ((∀ s ∈ getSessions [({ ts := 0, kind := "active" } : Ev), { ts := 123/2, kind := "idle" }],
        s.sStart ≤ s.sEnd ∧ s.durSec = pyInt (s.sEnd - s.sStart) ∧ 0 ≤ s.durSec) ∧
     (getSessions [({ ts := 0, kind := "active" } : Ev),
        { ts := 123/2, kind := "idle" }]).Pairwise (fun a b => a.sEnd ≤ b.sStart)) := by
  have hch : List.Chain' (fun a b : Ev => a.ts ≤ b.ts)
      [({ ts := 0, kind := "active" } : Ev), { ts := 123/2, kind := "idle" }] := by
    refine List.chain'_cons.mpr ⟨?_, List.chain'_singleton _⟩
    show (0:ℚ) ≤ 123/2
    norm_num
  exact ⟨hch, c10_sessions_invariant _ hch⟩

/-- Helper: the output comprehension on a single positive entry. -/
theorem appsOut_single (k : Str) (v : ℚ) (names : List (Str × Str)) (hv : 0 < v) :
    appsOut [(k, v)] names = [⟨(alookup names k).getD (pyTitle k), k, pyRound2 v⟩] := by
  unfold appsOut
  rw [List.mergeSort_singleton]
  simp [hv]

/-- Helper: `get_apps_usage` on a single `active` row at time 0 whose
application is `chrome.exe` credits `tailEnd` seconds to key `chrome`. -/
theorem getAppsUsage_single_chrome (tailEnd : ℚ) (hpos : 0 < tailEnd) :
    getAppsUsageAt [⟨0, "active", some (s2c "chrome.exe")⟩] tailEnd
      = some [⟨s2c "chrome.exe", s2c "chrome", pyRound2 (tailEnd / 60)⟩] := by
  have h1 : getAppsUsageAt [⟨0, "active", some (s2c "chrome.exe")⟩] tailEnd
      = if (0:ℚ) < tailEnd then
          some (appsOut (updAdd [] (s2c "chrome") (max 0 ((tailEnd - 0) / 60)))
            (insAbsent [] (s2c "chrome") (displayFrom (s2c "chrome.exe"))))
        else some (appsOut [] []) := rfl
  have hq : (tailEnd - 0) / 60 = tailEnd / 60 := by ring
  have hmax : max (0:ℚ) ((tailEnd - 0) / 60) = tailEnd / 60 := by
    rw [max_eq_right (div_nonneg (by linarith) (by norm_num))]
    exact hq
  rw [h1, if_pos hpos, hmax]
  rw [show updAdd [] (s2c "chrome") (tailEnd / 60)
      = [(s2c "chrome", tailEnd / 60)] from rfl]
  rw [show insAbsent [] (s2c "chrome") (displayFrom (s2c "chrome.exe"))
      = [(s2c "chrome", displayFrom (s2c "chrome.exe"))] from rfl]
  rw [appsOut_single _ _ _ (div_pos hpos (by norm_num))]
  rw [show (alookup [(s2c "chrome", displayFrom (s2c "chrome.exe"))]
      (s2c "chrome")).getD (pyTitle (s2c "chrome")) = s2c "chrome.exe" from by decide]

/-- C4 counterexample: on the same fixed store rows (one `active`
`chrome.exe` event at time 0, same day), two calls of `get_apps_usage` made
at different wall-clock instants (600 s and 1200 s into the day) return
different minute totals: the tail-closing reads `datetime.utcnow()`, a
hidden mutable input. -/
theorem c4_counterexample :
    getAppsUsage [⟨0, "active", some (s2c "chrome.exe")⟩] 6000 600
      = some [⟨s2c "chrome.exe", s2c "chrome", 10⟩] ∧
    getAppsUsage [⟨0, "active", some (s2c "chrome.exe")⟩] 6000 1200
      = some [⟨s2c "chrome.exe", s2c "chrome", 20⟩] ∧
    getAppsUsage [⟨0, "active", some (s2c "chrome.exe")⟩] 6000 600
      ≠ getAppsUsage [⟨0, "active", some (s2c "chrome.exe")⟩] 6000 1200 := by
  have e1 : getAppsUsage [⟨0, "active", some (s2c "chrome.exe")⟩] 6000 600
      = some [⟨s2c "chrome.exe", s2c "chrome", 10⟩] := by
    unfold getAppsUsage
    rw [show min (600:ℚ) 6000 = 600 by norm_num]
    rw [getAppsUsage_single_chrome 600 (by norm_num)]
    rw [show (600:ℚ) / 60 = 10 by norm_num]
    rw [show pyRound2 10 = 10 from by simpa using pyRound2_intCast 10]
  have e2 : getAppsUsage [⟨0, "active", some (s2c "chrome.exe")⟩] 6000 1200
      = some [⟨s2c "chrome.exe", s2c "chrome", 20⟩] := by
    unfold getAppsUsage
    rw [show min (1200:ℚ) 6000 = 1200 by norm_num]
    rw [getAppsUsage_single_chrome 1200 (by norm_num)]
    rw [show (1200:ℚ) / 60 = 20 by norm_num]
    rw [show pyRound2 20 = 20 from by simpa using pyRound2_intCast 20]
  refine ⟨e1, e2, ?_⟩
  rw [e1, e2]
  intro h
  simp only [Option.some.injEq, List.cons.injEq, AppItem.mk.injEq, and_true,
    true_and] at h
  norm_num at h

/-- C4 amended: `get_apps_usage` is a pure function of the stored rows, the
day bound and the clock reading; in particular two calls whose clock
readings both lie at or past the day's end (any completed day) return
identical results regardless of when they are made. -/
theorem c4_amended_clock_pure (rows : List ARow) (dayEnd n1 n2 : ℚ)
    (h1 : dayEnd ≤ n1) (h2 : dayEnd ≤ n2) :
    getAppsUsage rows dayEnd n1 = getAppsUsage rows dayEnd n2 := by
  unfold getAppsUsage
  rw [min_eq_right h1, min_eq_right h2]

/-- Witness for C4 amended: a completed day queried at its end and 600
seconds later. -/
theorem c4_amended_clock_pure_witness :
    (600:ℚ) ≤ 600 ∧ (600:ℚ) ≤ 1200 ∧
    getAppsUsage [⟨0, "active", some (s2c "chrome.exe")⟩] 600 600
      = getAppsUsage [⟨0, "active", some (s2c "chrome.exe")⟩] 600 1200 :=
  ⟨by norm_num, by norm_num,
   c4_amended_clock_pure _ _ _ _ (by norm_num) (by norm_num)⟩

/-- Helper: rounding below the half-point lands on the floor. -/
theorem round_eq_floor_of_lt_half (q : ℚ) (h : q - ⌊q⌋ < 1/2) : round q = ⌊q⌋ := by
  rw [round_eq]
  apply Int.floor_eq_iff.mpr
  constructor
  · have := Int.floor_le q
    linarith
  · linarith

/-- Helper: rounding above the half-point lands one above the floor. -/
theorem round_eq_floor_add_one_of_half_lt (q : ℚ) (h : 1/2 < q - ⌊q⌋) :
    round q = ⌊q⌋ + 1 := by
  rw [round_eq]
  apply Int.floor_eq_iff.mpr
  constructor
  · push_cast
    linarith
  · have := Int.lt_floor_add_one q
    push_cast
    linarith

/-- Helper: banker's rounding stays within one of the floor. -/
theorem halfEvenZ_bounds (q : ℚ) : ⌊q⌋ ≤ halfEvenZ q ∧ halfEvenZ q ≤ ⌊q⌋ + 1 := by
  unfold halfEvenZ
  by_cases h : q - ⌊q⌋ = 1/2
  · rw [if_pos h]
    by_cases h2 : 2 ∣ ⌊q⌋
    · rw [if_pos h2]
      omega
    · rw [if_neg h2]
      omega
  · rw [if_neg h]
    have hf0 : (0:ℚ) ≤ q - ⌊q⌋ := by
      have := Int.floor_le q
      linarith
    rcases lt_or_gt_of_ne h with hlt | hgt
    · rw [round_eq_floor_of_lt_half q hlt]
      omega
    · rw [round_eq_floor_add_one_of_half_lt q hgt]
      omega

/-- Helper: banker's rounding is monotone. -/
theorem halfEvenZ_mono {a b : ℚ} (hab : a ≤ b) : halfEvenZ a ≤ halfEvenZ b := by
  have hf : ⌊a⌋ ≤ ⌊b⌋ := Int.floor_mono hab
  rcases lt_or_eq_of_le hf with hflt | heq
  · have ha2 := halfEvenZ_bounds a
    have hb2 := halfEvenZ_bounds b
    omega
  · have heqQ : ((⌊a⌋ : ℤ) : ℚ) = ((⌊b⌋ : ℤ) : ℚ) := by exact_mod_cast heq
    by_cases ha : a - ⌊a⌋ = 1/2
    · by_cases hb' : b - ⌊b⌋ = 1/2
      · have hab2 : a = b := by linarith
        rw [hab2]
      · have hgt : 1/2 < b - ⌊b⌋ := by
          have hle2 : (1:ℚ)/2 ≤ b - ⌊b⌋ := by linarith
          exact lt_of_le_of_ne hle2 (fun hh => hb' hh.symm)
        have hb3 : halfEvenZ b = ⌊b⌋ + 1 := by
          unfold halfEvenZ
          rw [if_neg hb', round_eq_floor_add_one_of_half_lt b hgt]
        have ha2 := halfEvenZ_bounds a
        omega
    · by_cases hb' : b - ⌊b⌋ = 1/2
      · have hlt2 : a - ⌊a⌋ < 1/2 := by
          have hle2 : a - ⌊a⌋ ≤ 1/2 := by linarith
          exact lt_of_le_of_ne hle2 ha
        have ha3 : halfEvenZ a = ⌊a⌋ := by
          unfold halfEvenZ
          rw [if_neg ha, round_eq_floor_of_lt_half a hlt2]
        have hb2 := halfEvenZ_bounds b
        omega
      · unfold halfEvenZ
        rw [if_neg ha, if_neg hb', round_eq, round_eq]
        exact Int.floor_mono (by linarith)

/-- Helper: two-decimal rounding is monotone, so sorting on raw minutes also
sorts the rounded output. -/
theorem pyRound2_mono {a b : ℚ} (hab : a ≤ b) : pyRound2 a ≤ pyRound2 b := by
  unfold pyRound2
  have h := halfEvenZ_mono (a := a * 100) (b := b * 100) (by linarith)
  have hc : ((halfEvenZ (a * 100) : ℤ) : ℚ) ≤ ((halfEvenZ (b * 100) : ℤ) : ℚ) := by
    exact_mod_cast h
  linarith

/-- Helper: the shared output comprehension emits entries sorted descending
by minutes. -/
theorem appsOut_sorted (minutes : List (Str × ℚ)) (names : List (Str × Str)) :
    (appsOut minutes names).Pairwise (fun x y => y.minutes ≤ x.minutes) := by
  unfold appsOut
  rw [List.pairwise_map]
  have hs : (minutes.mergeSort (fun a b => decide (b.2 ≤ a.2))).Pairwise
      (fun a b : Str × ℚ => decide (b.2 ≤ a.2) = true) :=
    List.sorted_mergeSort
      (fun a b c hab hbc => by
        simp only [decide_eq_true_eq] at hab hbc ⊢
        exact le_trans hbc hab)
      (fun a b => by
        rcases le_total a.2 b.2 with h | h
        · simp [h]
        · simp [h])
      minutes
  exact (hs.imp (fun h => pyRound2_mono (of_decide_eq_true h))).filter _

/-- Helper: every emitted entry's minutes is the rounding of a strictly
positive accumulated total. -/
theorem appsOut_pos_source (minutes : List (Str × ℚ)) (names : List (Str × Str)) :
    ∀ it ∈ appsOut minutes names, ∃ v : ℚ, 0 < v ∧ it.minutes = pyRound2 v := by
  intro it hit
  unfold appsOut at hit
  rcases List.mem_map.mp hit with ⟨kv, hkv, rfl⟩
  rcases List.mem_filter.mp hkv with ⟨_, hpos⟩
  exact ⟨kv.2, of_decide_eq_true hpos, rfl⟩

/-- C6: two subjects reporting 10 and 5 minutes under the same normalized
key `chrome` merge into a single company-rollup entry of 15 minutes carrying
the first-seen label; in general the rollup is sorted descending by minutes
and every entry stems from a strictly positive accumulated total. -/
theorem c6_company_rollup (ls : List (List AppItem)) :
    companyAppsUsage
        [[⟨s2c "Chrome", s2c "chrome", 10⟩], [⟨s2c "Google Chrome", s2c "chrome", 5⟩]]
      = [⟨s2c "Chrome", s2c "chrome", 15⟩] ∧
    (companyAppsUsage ls).Pairwise (fun x y => y.minutes ≤ x.minutes) ∧
    ∀ it ∈ companyAppsUsage ls, ∃ v : ℚ, 0 < v ∧ it.minutes = pyRound2 v := by
  refine ⟨?_, ?_, ?_⟩
  · show appsOut [(s2c "chrome", (10:ℚ) + 5)] [(s2c "chrome", s2c "Chrome")]
        = [⟨s2c "Chrome", s2c "chrome", 15⟩]
    rw [show (10:ℚ) + 5 = 15 by norm_num]
    rw [appsOut_single _ _ _ (by norm_num : (0:ℚ) < 15)]
    rw [show (alookup [(s2c "chrome", s2c "Chrome")] (s2c "chrome")).getD
        (pyTitle (s2c "chrome")) = s2c "Chrome" from by decide]
    rw [show pyRound2 15 = 15 from by simpa using pyRound2_intCast 15]
  · unfold companyAppsUsage
    exact appsOut_sorted _ _
  · unfold companyAppsUsage
    exact appsOut_pos_source _ _

end EAM
